import Mathlib

/-!
Shallow embedding of the test-sequence interpreter of `teststand_like`
(`core/test_engine.py`, `core/step_model.py`, and the registry surface of
`core/test_loader.py`), together with theorems settling the frozen claims.

Python values that flow through the engine (runtime variables, step outputs,
function results, resolved parameters) are modelled by the inductive `Value`
covering the fragment the engine manipulates: `None`, booleans, integers,
strings, lists and string-keyed dicts.  Floats are outside the model (no claim
touches them).  Python dicts are modelled as insertion-ordered association
lists with unique keys; `dictInsert` reproduces `d[k] = v` (replace in place,
else append) and `dictGet` reproduces `d.get(k)`.
-/

inductive Value where
  | none : Value
  | bool : Bool → Value
  | int : Int → Value
  | str : String → Value
  | list : List Value → Value
  | dict : List (String × Value) → Value

mutual

/-- Python `repr` on the modelled fragment (`repr(7) = "7"`, `repr('a') = "'a'"`,
`repr(True) = "True"`, lists/dicts with bracketed comma-separated entries). -/
def pyRepr : Value → String
  | .none => "None"
  | .bool true => "True"
  | .bool false => "False"
  | .int n => toString n
  | .str s => "'" ++ s ++ "'"
  | .list l => "[" ++ pyReprList l ++ "]"
  | .dict l => "\x7b" ++ pyReprDict l ++ "\x7d"

def pyReprList : List Value → String
  | [] => ""
  | [v] => pyRepr v
  | v :: rest => pyRepr v ++ ", " ++ pyReprList rest

def pyReprDict : List (String × Value) → String
  | [] => ""
  | [(k, v)] => "'" ++ k ++ "': " ++ pyRepr v
  | (k, v) :: rest => "'" ++ k ++ "': " ++ pyRepr v ++ ", " ++ pyReprDict rest

end

/-- Python `str()`: identity on strings, `repr`-like elsewhere
(`str(7) = "7"`, `str(True) = "True"`, `str(None) = "None"`). -/
def pyStr : Value → String
  | .str s => s
  | v => pyRepr v

/-- Python truthiness (`bool(x)`): `None`/`False`/`0`/`""`/`[]`/`{}` are falsy. -/
def pyBool : Value → Bool
  | .none => false
  | .bool b => b
  | .int n => n != 0
  | .str s => s.length != 0
  | .list l => !l.isEmpty
  | .dict l => !l.isEmpty

/-- Python `x is None`. -/
def isNone : Value → Bool
  | .none => true
  | _ => false

/-- Runtime-variable dict (`runtime_vars` / `exec_state['vars']`): an
insertion-ordered string-keyed map, as Python dicts are. -/
abbrev Vars := List (String × Value)

/-- `d.get(k)` on a modelled dict. -/
def dictGet (d : List (String × Value)) (k : String) : Option Value :=
  (d.find? (fun kv => kv.1 == k)).map (·.2)

/-- `d[k] = v` on a modelled dict: replace in place if the key exists
(keeping its position, as CPython dicts do), else append. -/
def dictInsert (d : List (String × Value)) (k : String) (v : Value) :
    List (String × Value) :=
  match d with
  | [] => [(k, v)]
  | (k', v') :: rest =>
    if k' == k then (k, v) :: rest else (k', v') :: dictInsert rest k v

/-- `d.update(e)` on modelled dicts. -/
def dictUpdate (d e : List (String × Value)) : List (String × Value) :=
  e.foldl (fun acc kv => dictInsert acc kv.1 kv.2) d

/-- `d.get(k, default)` on a string-valued dict (used for `step.params`). -/
def dictGetS (d : List (String × String)) (k : String) (dflt : String) : String :=
  match d.find? (fun kv => kv.1 == k) with
  | some kv => kv.2
  | Option.none => dflt

/-- The `control` field of a control `StepObject`
(`'if' | 'for' | 'end' | 'break'`). -/
inductive Ctrl where
  | cif : Ctrl
  | cfor : Ctrl
  | cend : Ctrl
  | cbreak : Ctrl
deriving DecidableEq

/-- The `type` field of a `StepObject` (`'function'` or `'control'`). -/
inductive StepType where
  | function : StepType
  | control : StepType
deriving DecidableEq

/-- `StepObject` from `core/step_model.py`.  The `id` field (a uuid used only
by the UI layer) is omitted; `module`/`function` are `""` for control steps
(the engine never reads them there).  `params` values are raw strings, as in
the source; `outputs` holds post-execution results. -/
structure Step where
  type' : StepType
  module : String
  function : String
  control : Option Ctrl
  params : List (String × String)
  outputs : List (String × Value)

def defaultStep : Step :=
  { type' := .control, module := "", function := "", control := Option.none,
    params := [], outputs := [] }

def mkFunctionStep (module function : String) (params : List (String × String)) : Step :=
  { type' := .function, module := module, function := function,
    control := Option.none, params := params, outputs := [] }

def mkControlStep (c : Ctrl) (params : List (String × String)) : Step :=
  { type' := .control, module := "", function := "", control := some c,
    params := params, outputs := [] }

/-- The control tag of a step, `none` when the step is not a control step
(mirrors the `isinstance(step, StepObject) and step.type == 'control'`
guard followed by reading `step.control`). -/
def ctrlOf (s : Step) : Option Ctrl :=
  if s.type' = .control then s.control else Option.none

def isForB (s : Step) : Bool :=
  match ctrlOf s with
  | some .cfor => true
  | _ => false

def isIfB (s : Step) : Bool :=
  match ctrlOf s with
  | some .cif => true
  | _ => false

def isBreakB (s : Step) : Bool :=
  match ctrlOf s with
  | some .cbreak => true
  | _ => false

def isEndB (s : Step) : Bool :=
  match ctrlOf s with
  | some .cend => true
  | _ => false

/-- A block-opening header (`if` or `for`). -/
def isOpenB (s : Step) : Bool :=
  match ctrlOf s with
  | some .cif => true
  | some .cfor => true
  | _ => false

/-! ### The reference resolver (`TestEngine.resolve_references`)

`resolve_references` first rewrites every `${#N:key}` occurrence
(regex `\$\{#(\d+):([^}]+)\}`), then every `${@name}` occurrence
(regex `\$\{@([^}]+)\}`), then tries `ast.literal_eval` on the substituted
text, falling back to the substituted string itself.  The regex scans are
modelled character by character exactly as `re.sub` behaves on these two
patterns: leftmost-first, non-overlapping, the replacement text is not
rescanned, and on a failed match the scan advances by one character.
`ast.literal_eval` (Python stdlib) is modelled on the fragment the engine
feeds it: integers with an optional sign, `True`/`False`/`None`, quoted
strings without escape sequences, and (possibly nested) list displays.
Floats, tuples, dicts and escape sequences are outside the model. -/

def isWsC (c : Char) : Bool :=
  c == ' ' || c == '\t' || c == '\n' || c == '\r'

def skipWs (cs : List Char) : List Char :=
  cs.dropWhile isWsC

def digitsToNat (ds : List Char) : Nat :=
  ds.foldl (fun acc c => acc * 10 + (c.toNat - '0'.toNat)) 0

mutual

/-- One literal, fueled recursive descent; returns the value and the rest. -/
def parseLit : Nat → List Char → Option (Value × List Char)
  | 0, _ => Option.none
  | fuel + 1, cs =>
    match skipWs cs with
    | 'T' :: 'r' :: 'u' :: 'e' :: rest => some (.bool true, rest)
    | 'F' :: 'a' :: 'l' :: 's' :: 'e' :: rest => some (.bool false, rest)
    | 'N' :: 'o' :: 'n' :: 'e' :: rest => some (.none, rest)
    | '-' :: rest =>
      match (skipWs rest).span Char.isDigit with
      | ([], _) => Option.none
      | (ds, rest') => some (.int (-(digitsToNat ds : Int)), rest')
    | '+' :: rest =>
      match (skipWs rest).span Char.isDigit with
      | ([], _) => Option.none
      | (ds, rest') => some (.int (digitsToNat ds : Int), rest')
    | '\'' :: rest =>
      match rest.span (fun c => c != '\'') with
      | (body, '\'' :: rest') => some (.str (String.mk body), rest')
      | _ => Option.none
    | '"' :: rest =>
      match rest.span (fun c => c != '"') with
      | (body, '"' :: rest') => some (.str (String.mk body), rest')
      | _ => Option.none
    | '[' :: rest => parseListLit fuel rest []
    | c :: rest =>
      if c.isDigit then
        match (c :: rest).span Char.isDigit with
        | (ds, rest') => some (.int (digitsToNat ds : Int), rest')
      else Option.none
    | [] => Option.none

/-- Elements of a list display, after the opening `[`; allows a trailing
comma, as Python does. -/
def parseListLit : Nat → List Char → List Value → Option (Value × List Char)
  | 0, _, _ => Option.none
  | fuel + 1, cs, acc =>
    match skipWs cs with
    | ']' :: rest => some (.list acc.reverse, rest)
    | cs' =>
      match parseLit fuel cs' with
      | some (v, rest) =>
        match skipWs rest with
        | ',' :: rest' => parseListLit fuel rest' (v :: acc)
        | ']' :: rest' => some (.list (v :: acc).reverse, rest')
        | _ => Option.none
      | Option.none => Option.none

end

/-- `ast.literal_eval` on the modelled fragment: the whole string (up to
surrounding whitespace) must be one literal. -/
def pyLiteralEval (s : String) : Option Value :=
  match parseLit (s.length + 1) s.toList with
  | some (v, rest) => if (skipWs rest).isEmpty then some v else Option.none
  | Option.none => Option.none

/-- The replacement computed by `repl_step` for a matched `${#N:key}`:
`outputs[key]` of step N (1-based) if present, else `params[key]`, else
`""`; out-of-range N gives `""`.  The substituted text is `str()` of the
value found. -/
def replStep (steps : List Step) (n : Nat) (key : String) : String :=
  if 1 ≤ n ∧ n ≤ steps.length then
    let step := steps.getD (n - 1) defaultStep
    match dictGet step.outputs key with
    | some v => pyStr v
    | Option.none => dictGetS step.params key ""
  else ""

/-- Try to match the regex `\$\{#(\d+):([^}]+)\}` at the head of `cs`;
on success return the replacement text and the characters after the match. -/
def tryMatchStepRef (steps : List Step) (cs : List Char) :
    Option (String × List Char) :=
  match cs with
  | '$' :: '{' :: '#' :: rest =>
    match rest.span Char.isDigit with
    | ([], _) => Option.none
    | (ds, rest1) =>
      match rest1 with
      | ':' :: rest2 =>
        match rest2.span (fun c => c != '}') with
        | ([], _) => Option.none
        | (ks, rest3) =>
          match rest3 with
          | '}' :: rest4 =>
            some (replStep steps (digitsToNat ds) (String.mk ks), rest4)
          | _ => Option.none
      | _ => Option.none
  | _ => Option.none

/-- `re.sub` of the step-reference pattern over the whole string.  The fuel
is the remaining length; every recursive call consumes at least one input
character, so `length + 1` fuel never runs out. -/
def subStepRefs (steps : List Step) : Nat → List Char → List Char
  | 0, cs => cs
  | _ + 1, [] => []
  | fuel + 1, c :: cs =>
    match tryMatchStepRef steps (c :: cs) with
    | some (rep, rest) => rep.toList ++ subStepRefs steps fuel rest
    | Option.none => c :: subStepRefs steps fuel cs

/-- Try to match the regex `\$\{@([^}]+)\}` at the head of `cs`; the
replacement is `str(runtime_vars.get(name, ""))`. -/
def tryMatchVarRef (runtime_vars : Vars) (cs : List Char) :
    Option (String × List Char) :=
  match cs with
  | '$' :: '{' :: '@' :: rest =>
    match rest.span (fun c => c != '}') with
    | ([], _) => Option.none
    | (ks, rest1) =>
      match rest1 with
      | '}' :: rest2 =>
        match dictGet runtime_vars (String.mk ks) with
        | some v => some (pyStr v, rest2)
        | Option.none => some ("", rest2)
      | _ => Option.none
  | _ => Option.none

/-- `re.sub` of the variable-reference pattern over the whole string. -/
def subVarRefs (runtime_vars : Vars) : Nat → List Char → List Char
  | 0, cs => cs
  | _ + 1, [] => []
  | fuel + 1, c :: cs =>
    match tryMatchVarRef runtime_vars (c :: cs) with
    | some (rep, rest) => rep.toList ++ subVarRefs runtime_vars fuel rest
    | Option.none => c :: subVarRefs runtime_vars fuel cs

/-- `TestEngine.resolve_references` (test_engine.py lines 441-486):
non-string inputs pass through; a string is rewritten by the two
substitutions in order and then parsed as a literal, falling back to the
substituted string. -/
def resolve_references (steps : List Step) (text : Value)
    (runtime_vars : Vars) : Value :=
  match text with
  | .str s =>
    let cs := s.toList
    let t2 := subStepRefs steps (cs.length + 1) cs
    let t3 := String.mk (subVarRefs runtime_vars (t2.length + 1) t2)
    match pyLiteralEval t3 with
    | some v => v
    | Option.none => .str t3
  | v => v

/-- Identifier test for the modelled `eval` fallback fragment. -/
def isIdentS (s : String) : Bool :=
  match s.toList with
  | [] => false
  | c :: rest =>
    (c.isAlpha || c == '_') && rest.all (fun d => d.isAlphanum || d == '_')

/-- `TestEngine._safe_eval` (lines 488-500): `ast.literal_eval` first; on
failure, `eval` with empty builtins and `local_vars`; on failure `False`.
The `eval` fallback is modelled on the fragment the engine relies on: a bare
identifier evaluates to its binding in `local_vars`; every other
non-literal expression takes the exception path and yields `False`. -/
def safe_eval (expr : String) (local_vars : Vars) : Value :=
  match pyLiteralEval expr with
  | some v => v
  | Option.none =>
    let t := expr.trim
    if isIdentS t then
      match dictGet local_vars t with
      | some v => v
      | Option.none => .bool false
    else .bool false

/-- `list(x)` on the modelled fragment: lists iterate to themselves, strings
to their characters, dicts to their keys; everything else raises. -/
def toIterList : Value → Option (List Value)
  | .list l => some l
  | .str s => some (s.toList.map (fun c => Value.str (String.mk [c])))
  | .dict l => some (l.map (fun kv => Value.str kv.1))
  | _ => Option.none

/-- The iterator classification shared by `_run_block`'s `for` branch
(lines 297-305) and `step_run`'s `for`-header branch (lines 103-111):
an `int` becomes `range(n)` (Python `bool` is an `int`: `True` gives
`range(1)`), a list is used as-is, anything else goes through
`list(_safe_eval(str(x), runtime_vars))` with failures giving `[]`. -/
def classify_iterable (v : Value) (runtime_vars : Vars) : List Value :=
  match v with
  | .int n => (List.range n.toNat).map (fun k => Value.int (k : Int))
  | .bool b => if b then [Value.int 0] else []
  | .list l => l
  | w =>
    match toIterList (safe_eval (pyStr w) runtime_vars) with
    | some l => l
    | Option.none => []

/-! ### Block matching (`TestEngine._find_matching_end`, lines 419-431) -/

/-- The depth contribution of a step in `_find_matching_end`'s scan:
`if`/`for` increment, `end` decrements, everything else is neutral. -/
def stepTok (s : Step) : Int :=
  match ctrlOf s with
  | some .cif => 1
  | some .cfor => 1
  | some .cend => -1
  | _ => 0

/-- The scanning loop of `_find_matching_end` over the suffix starting at
absolute index `i`, carrying the running depth: the depth test happens only
after a decrement, exactly as in the source. -/
def fmeAux : List Step → Nat → Int → Int
  | [], _, _ => -1
  | s :: rest, i, depth =>
    match ctrlOf s with
    | some .cif => fmeAux rest (i + 1) (depth + 1)
    | some .cfor => fmeAux rest (i + 1) (depth + 1)
    | some .cend =>
      if depth - 1 = 0 then (i : Int) else fmeAux rest (i + 1) (depth - 1)
    | _ => fmeAux rest (i + 1) depth

/-- `TestEngine._find_matching_end`: scan forward from `start_index`,
returning the index where the depth first returns to zero, or `-1`. -/
def find_matching_end (steps : List Step) (start_index : Nat) : Int :=
  fmeAux (steps.drop start_index) start_index 0

/-! ### The engine, callbacks and observable events -/

/-- Declared parameter annotation of a callable, as `_run_block` consumes it
via `inspect.signature` (lines 360-382): `bool`, `int`, some other
annotation, or no annotation.  Float annotations are outside the model
(`Value` has no float). -/
inductive PType where
  | pbool : PType
  | pint : PType
  | pother : PType
  | pempty : PType
deriving DecidableEq

/-- A registered callable: its declared parameters in order and its body.
The body receives the bound keyword arguments and either returns a value or
raises (modelled by `Except`, the error being `str(e)`). -/
structure PyFunc where
  params : List (String × PType)
  impl : List (String × Value) → Except String Value

/-- The engine's external collaborators: `test_loader.get_function` and
`test_loader.get_return_names` (test_loader.py lines 110-147). -/
structure Engine where
  funcs : String → String → Option PyFunc
  ret_names : String → String → List String

/-- One observable callback invocation: `output_callback(msg)`,
`watcher_callback(vars)` or `status_callback(idx, success)`. -/
inductive Event where
  | out : String → Event
  | watch : Vars → Event
  | stat : Nat → Bool → Event

/-- The mutable state a run touches: the step list (whose `outputs` the
engine writes in place) and the ordered log of callback invocations. -/
structure EngineSt where
  steps : List Step
  log : List Event

def logOut (st : EngineSt) (m : String) : EngineSt :=
  { st with log := st.log ++ [Event.out m] }

def logWatch (st : EngineSt) (v : Vars) : EngineSt :=
  { st with log := st.log ++ [Event.watch v] }

def logStat (st : EngineSt) (i : Nat) (b : Bool) : EngineSt :=
  { st with log := st.log ++ [Event.stat i b] }

/-- Python `int(x)` on the modelled fragment: ints pass through, bools map
to 0/1, strings parse as an optionally signed decimal (surrounding
whitespace allowed); everything else raises (`Option.none`). -/
def pyToInt : Value → Option Int
  | .int n => some n
  | .bool b => some (if b then 1 else 0)
  | .str s =>
    match skipWs s.toList with
    | '-' :: rest =>
      match rest.span Char.isDigit with
      | ([], _) => Option.none
      | (ds, rest') =>
        if (skipWs rest').isEmpty then some (-(digitsToNat ds : Int)) else Option.none
    | '+' :: rest =>
      match rest.span Char.isDigit with
      | ([], _) => Option.none
      | (ds, rest') =>
        if (skipWs rest').isEmpty then some (digitsToNat ds : Int) else Option.none
    | cs =>
      match cs.span Char.isDigit with
      | ([], _) => Option.none
      | (ds, rest') =>
        if (skipWs rest').isEmpty then some (digitsToNat ds : Int) else Option.none
  | _ => Option.none

/-- The truthy token set of the `bool` coercion:
`str(resolved).lower() in ('true', '1', 'yes', 'on')`. -/
def truthyToken (s : String) : Bool :=
  s == "true" || s == "1" || s == "yes" || s == "on"

def strLower (s : String) : String :=
  String.mk (s.toList.map Char.toLower)

/-- Argument binding for a function step (`_run_block` lines 359-382): for
each declared parameter, take the step's raw string (default `""`), resolve
references, then coerce per the annotation.  A failed `int` conversion logs
a warning and falls back to the resolved value. -/
def bindArgs (st : EngineSt) (step : Step) (params : List (String × PType))
    (runtime_vars : Vars) : EngineSt × List (String × Value) :=
  params.foldl
    (fun (acc : EngineSt × List (String × Value)) p =>
      let (st, args) := acc
      let raw := dictGetS step.params p.1 ""
      let resolved := resolve_references st.steps (.str raw) runtime_vars
      match p.2 with
      | .pempty => (st, args ++ [(p.1, resolved)])
      | .pother => (st, args ++ [(p.1, resolved)])
      | .pbool =>
        let v : Value :=
          match resolved with
          | .bool b => .bool b
          | w => .bool (truthyToken (strLower (pyStr w)))
        (st, args ++ [(p.1, v)])
      | .pint =>
        match pyToInt resolved with
        | some n => (st, args ++ [(p.1, Value.int n)])
        | Option.none =>
          (logOut st ("参数 '" ++ p.1 ++ "' 类型转换失败: invalid literal for int(): "
              ++ pyRepr resolved),
           args ++ [(p.1, resolved)]))
    (st, [])

/-- Storing a function result (lines 388-399): a dict result is merged into
the step's `outputs`; any other result is stored under `return` and
mirrored under every name `get_return_names` predicts. -/
def writeOutputs (steps : List Step) (i : Nat) (result : Value)
    (preds : List String) : List Step :=
  let step := steps.getD i defaultStep
  let newOutputs :=
    match result with
    | .dict d => dictUpdate step.outputs d
    | r => preds.foldl (fun o p => dictInsert o p r) (dictInsert step.outputs "return" r)
  steps.set i { step with outputs := newOutputs }

/-- The success verdict of a function invocation:
`(result is None) or bool(result)` (line 401). -/
def succOf (result : Value) : Bool :=
  isNone result || pyBool result

/-- Result of one `_run_block` call: a normal return
`(next_index, runtime_vars, actions_done)`, an escaping
`BreakLoop(actions, runtime_vars)`, or fuel exhaustion (a model artifact:
every theorem supplies ample fuel). -/
inductive BlockOut where
  | ok : Nat → Vars → Nat → BlockOut
  | brk : Nat → Vars → BlockOut
  | nofuel : BlockOut

/-- Result of the `for`-body iteration loop inside `_run_block`
(lines 314-327): finish and continue after the block, or return the whole
block early (budget exhausted after absorbing a break).  A `BreakLoop` from
the body is always caught here, so it cannot escape the iteration loop. -/
inductive ForOut where
  | fin : Vars → Nat → ForOut
  | early : Vars → Nat → ForOut
  | nofuel : ForOut

/-- `max_actions is not None and actions >= max_actions`. -/
def budgetHit (max_actions : Option Nat) (actions : Nat) : Bool :=
  match max_actions with
  | some b => actions ≥ b
  | Option.none => false

/-- Remaining budget handed to a nested `_run_block`:
`None if max_actions is None else (max_actions - actions)`.  Python may
produce a negative number here; a non-positive budget makes every budget
test succeed after the first action in both Python and this Nat model. -/
def remBudget (max_actions : Option Nat) (actions : Nat) : Option Nat :=
  max_actions.map (fun b => b - actions)

mutual

/-- `TestEngine._run_block` (lines 238-417).  The `while i <= end_idx` loop
is the recursion on `i`; `actions` is the local action counter; `end_idx`
is an `Int` because callers pass `len(steps) - 1` and `match - 1`, which
can be negative.  Fuel only bounds the recursion depth of the model; all
theorems supply enough of it. -/
def runBlockAux (eng : Engine) : Nat → EngineSt → Nat → Int → Vars →
    Option Nat → Nat → EngineSt × BlockOut
  | 0, st, _, _, _, _, _ => (st, .nofuel)
  | fuel + 1, st, i, end_idx, runtime_vars, max_actions, actions =>
    if (i : Int) > end_idx then (st, .ok i runtime_vars actions)
    else if i ≥ st.steps.length then (st, .ok i runtime_vars actions)
    else
      let step := st.steps.getD i defaultStep
      match ctrlOf step with
      | some .cif =>
        -- lines 264-289
        let m := find_matching_end st.steps i
        let cond_raw := dictGetS step.params "condition" ""
        let cond_val := resolve_references st.steps (.str cond_raw) runtime_vars
        let cond_bool : Value :=
          match cond_val with
          | .bool b => .bool b
          | v => safe_eval (pyStr v) runtime_vars
        let st := logOut st ("IF condition (" ++ cond_raw ++ ") -> " ++ pyStr cond_bool)
        let st := logWatch st runtime_vars
        let actions := actions + 1
        if budgetHit max_actions actions then (st, .ok (i + 1) runtime_vars actions)
        else if pyBool cond_bool then
          if m != -1 && m > (i : Int) then
            match runBlockAux eng fuel st (i + 1) (m - 1) runtime_vars
                (remBudget max_actions actions) 0 with
            | (st, .ok _ nv a) =>
              let actions := actions + a
              let i' := (m + 1).toNat
              if budgetHit max_actions actions then (st, .ok i' nv actions)
              else runBlockAux eng fuel st i' end_idx nv max_actions actions
            | (st, .brk a v) => (st, .brk a v)
            | (st, .nofuel) => (st, .nofuel)
          else
            -- condition true but no nested block: fall through to `i += 1`
            runBlockAux eng fuel st (i + 1) end_idx runtime_vars max_actions actions
        else
          let i' := if m != -1 then (m + 1).toNat else i + 1
          runBlockAux eng fuel st i' end_idx runtime_vars max_actions actions
      | some .cfor =>
        -- lines 291-332
        let m := find_matching_end st.steps i
        let iterable_raw := dictGetS step.params "iterable" ""
        let varname := dictGetS step.params "var" "_loop"
        let iterable_val := resolve_references st.steps (.str iterable_raw) runtime_vars
        let iterator := classify_iterable iterable_val runtime_vars
        let st := logOut st ("FOR over " ++ iterable_raw ++ " -> " ++ pyStr (.list iterator))
        let st := logWatch st runtime_vars
        let actions := actions + 1
        if budgetHit max_actions actions then (st, .ok (i + 1) runtime_vars actions)
        else if m != -1 && m > (i : Int) then
          match runForVals eng fuel st (i + 1) (m - 1) runtime_vars varname iterator
              max_actions actions with
          | (st, .fin nv a) =>
            runBlockAux eng fuel st ((m + 1).toNat) end_idx nv max_actions a
          | (st, .early nv a) => (st, .ok ((m + 1).toNat) nv a)
          | (st, .nofuel) => (st, .nofuel)
        else
          runBlockAux eng fuel st (i + 1) end_idx runtime_vars max_actions actions
      | some .cbreak =>
        -- lines 334-338: note the raise carries actions=1, not the local count
        let actions := actions + 1
        let st := logOut st "BREAK"
        let st := logWatch st runtime_vars
        let _ := actions
        (st, .brk 1 runtime_vars)
      | some .cend =>
        -- lines 340-342
        runBlockAux eng fuel st (i + 1) end_idx runtime_vars max_actions actions
      | Option.none =>
        if step.type' = .function then
          -- lines 345-413
          match eng.funcs step.module step.function with
          | Option.none =>
            let st := logOut st ("跳过未知函数: " ++ step.module ++ "." ++ step.function)
            let st := logWatch st runtime_vars
            runBlockAux eng fuel st (i + 1) end_idx runtime_vars max_actions actions
          | some fn =>
            let st := logOut st ("执行: " ++ step.module ++ "." ++ step.function ++ "... ")
            let st := logWatch st runtime_vars
            let (st, args) := bindArgs st step fn.params runtime_vars
            let st :=
              match fn.impl args with
              | .ok result =>
                let st := { st with
                  steps := writeOutputs st.steps i result
                    (eng.ret_names step.module step.function) }
                let success := succOf result
                let st := logOut st (if success then "成功" else "失败")
                logStat st i success
              | .error e =>
                let st := logOut st ("错误: " ++ e)
                logStat st i false
            let st := logWatch st runtime_vars
            let actions := actions + 1
            if budgetHit max_actions actions then (st, .ok (i + 1) runtime_vars actions)
            else runBlockAux eng fuel st (i + 1) end_idx runtime_vars max_actions actions
        else
          runBlockAux eng fuel st (i + 1) end_idx runtime_vars max_actions actions

/-- The `for val in iterator` loop of `_run_block` (lines 315-327).  Every
iteration re-clones the loop-entry `runtime_vars` (`vals_orig`), binds the
loop variable and runs the body with the remaining budget.  On a normal body
return, the returned vars are discarded (the source binds `nv` but never
writes it back).  On a `BreakLoop`, its actions are absorbed, its vars
adopted (`ex.runtime_vars or runtime_vars`: an empty dict is falsy, so the
loop-entry vars survive then), and iteration stops — early-returning the
whole block when the budget is exhausted. -/
def runForVals (eng : Engine) : Nat → EngineSt → Nat → Int → Vars → String →
    List Value → Option Nat → Nat → EngineSt × ForOut
  | 0, st, _, _, _, _, _, _, _ => (st, .nofuel)
  | _ + 1, st, _, _, vars_orig, _, [], _, actions => (st, .fin vars_orig actions)
  | fuel + 1, st, body_start, body_end, vars_orig, varname, val :: rest,
      max_actions, actions =>
    let new_vars := dictInsert vars_orig varname val
    match runBlockAux eng fuel st body_start body_end new_vars
        (remBudget max_actions actions) 0 with
    | (st, .ok _ _ a) =>
      runForVals eng fuel st body_start body_end vars_orig varname rest
        max_actions (actions + a)
    | (st, .brk a bv) =>
      let actions := actions + a
      let rv := if bv.isEmpty then vars_orig else bv
      if budgetHit max_actions actions then (st, .early rv actions)
      else (st, .fin rv actions)
    | (st, .nofuel) => (st, .nofuel)

end

/-- `_run_block` proper: the local `actions` counter starts at 0. -/
def run_block (eng : Engine) (fuel : Nat) (st : EngineSt) (start_idx : Nat)
    (end_idx : Int) (runtime_vars : Vars) (max_actions : Option Nat) :
    EngineSt × BlockOut :=
  runBlockAux eng fuel st start_idx end_idx runtime_vars max_actions 0

/-- How `run_all` ended: normal completion, or a top-level `BreakLoop`
caught and reported as a note.  (The generic `except Exception` arm of the
source is unreachable in the model: no other exception is raised.) -/
inductive RunOutcome where
  | completed : RunOutcome
  | breakIgnored : RunOutcome
  | nofuel : RunOutcome

/-- `TestEngine.run_all` (lines 65-74).  The source discards `_run_block`'s
return value; the model also exposes it so theorems can speak about the
final runtime variables of the completed top-level block. -/
def run_all (eng : Engine) (fuel : Nat) (st : EngineSt) :
    EngineSt × RunOutcome × BlockOut :=
  let st := logOut st "开始执行测试序列...\n"
  match run_block eng fuel st 0 ((st.steps.length : Int) - 1) [] Option.none with
  | (st, .ok ni nv a) =>
    (logOut st "测试序列执行完成。\n", .completed, .ok ni nv a)
  | (st, .brk a v) =>
    (logOut st "遇到 break（未在循环内），已忽略。\n", .breakIgnored, .brk a v)
  | (st, .nofuel) => (st, .nofuel, .nofuel)

/-! ### The step-run state machine (`TestEngine.step_run`, lines 76-224) -/

/-- A `loop_stack` entry (`{'start', 'end', 'iterator', 'pos', 'var'}`).
`end_` is an `Int` because it stores `_find_matching_end`'s result, which
can be the `-1` sentinel. -/
structure LoopFrame where
  start : Nat
  end_ : Int
  iterator : List Value
  pos : Nat
  var : String

/-- `exec_state`: the resumable single-step cursor. -/
structure ExecState where
  index : Nat
  vars : Vars
  loop_stack : List LoopFrame

def initExecState : ExecState :=
  { index := 0, vars := [], loop_stack := [] }

/-- `TestEngine._find_enclosing_loop` (lines 433-439): innermost stack entry
whose open range `(start, end]` contains the index. -/
def find_enclosing_loop (ex : ExecState) (start_idx : Nat) : Option LoopFrame :=
  ex.loop_stack.reverse.find?
    (fun e => e.start < start_idx && (start_idx : Int) ≤ e.end_)

/-- `loop_stack.remove(entry)`.  The source removes the entry object found
by `_find_enclosing_loop`; since a frame is only pushed when no frame with
the same `start` exists (the `existing` check in the `for`-header branch),
`start` uniquely identifies live entries, and removal is modelled by it. -/
def removeFrame (stack : List LoopFrame) (fr : LoopFrame) : List LoopFrame :=
  match stack with
  | [] => []
  | f :: rest => if f.start == fr.start then rest else f :: removeFrame rest fr

/-- In-place mutation of the found frame (`enclosing['pos'] += 1`): replace
the stack entry with the same `start`. -/
def setFrame (stack : List LoopFrame) (fr : LoopFrame) : List LoopFrame :=
  match stack with
  | [] => []
  | f :: rest => if f.start == fr.start then fr :: rest else f :: setFrame rest fr

/-- `TestEngine.step_run`: one transition of the single-step state machine.
`fuel` feeds the inner `_run_block` calls; `Option.none` is fuel exhaustion
(never hit by the theorems below). -/
def step_run (eng : Engine) (fuel : Nat) (st : EngineSt) (ex : ExecState) :
    Option (EngineSt × ExecState) :=
  let start := ex.index
  let endI : Int := (st.steps.length : Int) - 1
  if (start : Int) > endI then
    some (logOut st "已到序列末尾；请重置执行以重新开始。", ex)
  else
    let step := st.steps.getD start defaultStep
    if isForB step then
      -- lines 91-130
      let existing := ex.loop_stack.find? (fun e => e.start == start)
      let m := find_matching_end st.steps start
      let iterable_raw := dictGetS step.params "iterable" ""
      let varname := dictGetS step.params "var" "_loop"
      let iterable_val := resolve_references st.steps (.str iterable_raw) ex.vars
      let iterator := classify_iterable iterable_val ex.vars
      if iterator.isEmpty then
        let ni := if m != -1 then (m + 1).toNat else start + 1
        some (logOut st ("单步执行: 空迭代对象，跳过 for-block，下一索引 " ++ toString ni),
          { ex with index := ni })
      else
        let entry :=
          match existing with
          | some e => e
          | Option.none =>
            { start := start, end_ := m, iterator := iterator, pos := 0, var := varname }
        let stack :=
          match existing with
          | some _ => ex.loop_stack
          | Option.none => ex.loop_stack ++ [entry]
        let v := entry.iterator.getD entry.pos .none
        let new_vars := dictInsert ex.vars varname v
        some (logOut st ("进入 for: 设 " ++ varname ++ " = " ++ pyStr v ++ "，下一索引 "
            ++ toString (start + 1)),
          { index := start + 1, vars := new_vars, loop_stack := stack })
    else if isIfB step then
      -- lines 133-150
      let m := find_matching_end st.steps start
      let cond_raw := dictGetS step.params "condition" ""
      let cond_val := resolve_references st.steps (.str cond_raw) ex.vars
      let cond_bool : Value :=
        match cond_val with
        | .bool b => .bool b
        | v => safe_eval (pyStr v) ex.vars
      let st := logOut st ("IF condition (" ++ cond_raw ++ ") -> " ++ pyStr cond_bool)
      let st := logWatch st ex.vars
      if pyBool cond_bool then
        some (logOut st ("条件为真，进入 if 块，下一索引 " ++ toString (start + 1)),
          { ex with index := start + 1 })
      else
        let ni := if m != -1 then (m + 1).toNat else start + 1
        some (logOut st ("条件为假，跳过 if 块，下一索引 " ++ toString ni),
          { ex with index := ni })
    else if isBreakB step then
      -- lines 153-171
      match find_enclosing_loop ex start with
      | some enc =>
        let stack := removeFrame ex.loop_stack enc
        let ni := (enc.end_ + 1).toNat
        some (logOut st ("在循环内遇到 break，跳至索引 " ++ toString ni),
          { ex with index := ni, loop_stack := stack })
      | Option.none =>
        some (logOut st "遇到 break（未在循环内），已忽略。", { ex with index := start + 1 })
    else
      match find_enclosing_loop ex start with
      | some enc =>
        -- lines 174-212
        match run_block eng fuel st start enc.end_ ex.vars (some 1) with
        | (st, .brk _ bv) =>
          let nv := if bv.isEmpty then ex.vars else bv
          let stack := removeFrame ex.loop_stack enc
          let ni := (enc.end_ + 1).toNat
          some (logOut st ("在循环内遇到 break，跳至索引 " ++ toString ni),
            { index := ni, vars := nv, loop_stack := stack })
        | (st, .ok ni nv a) =>
          if (ni : Int) > enc.end_ then
            let enc' := { enc with pos := enc.pos + 1 }
            let stack := setFrame ex.loop_stack enc'
            if enc'.pos < enc'.iterator.length then
              let v := enc'.iterator.getD enc'.pos .none
              let vars' := dictInsert nv enc'.var v
              some (logOut st ("循环下次迭代: 设 " ++ enc'.var ++ " = " ++ pyStr v
                  ++ "，下一索引 " ++ toString (enc'.start + 1)),
                { index := enc'.start + 1, vars := vars', loop_stack := stack })
            else
              let stack2 := removeFrame stack enc'
              let ni2 := (enc'.end_ + 1).toNat
              some (logOut st ("循环完成，下一索引 " ++ toString ni2),
                { index := ni2, vars := nv, loop_stack := stack2 })
          else
            some (logOut st ("单步执行: 完成 " ++ toString a ++ " 个操作，下一索引 "
                ++ toString ni),
              { ex with index := ni, vars := nv })
        | (_, .nofuel) => Option.none
      | Option.none =>
        -- lines 215-224
        match run_block eng fuel st start endI ex.vars (some 1) with
        | (st, .ok ni nv a) =>
          some (logOut st ("单步执行: 完成 " ++ toString a ++ " 个操作，下一索引 "
              ++ toString ni),
            { ex with index := ni, vars := nv })
        | (st, .brk a bv) =>
          let ni := start + 1
          let nv := if bv.isEmpty then ex.vars else bv
          some (logOut st ("单步执行: 完成 " ++ toString a ++ " 个操作，下一索引 "
              ++ toString ni),
            { ex with index := ni, vars := nv })
        | (_, .nofuel) => Option.none

/-- `TestEngine.reset_execution` (lines 226-236): fresh `exec_state`, all
step outputs cleared, an empty watcher snapshot and a note. -/
def reset_execution (st : EngineSt) : EngineSt × ExecState :=
  let st := { st with steps := st.steps.map (fun s => { s with outputs := [] }) }
  let st := logWatch st []
  (logOut st "执行状态已重置；已清除运行时变量与步骤输出", initExecState)

/-- Drive `step_run` until the cursor is past the last step (the spec's
`Finished` state), as the equivalence claims describe. -/
def step_run_until (eng : Engine) : Nat → Nat → EngineSt → ExecState →
    Option (EngineSt × ExecState)
  | 0, _, st, ex =>
    if (ex.index : Int) > (st.steps.length : Int) - 1 then some (st, ex) else Option.none
  | fuel + 1, blockFuel, st, ex =>
    if (ex.index : Int) > (st.steps.length : Int) - 1 then some (st, ex)
    else
      match step_run eng blockFuel st ex with
      | some (st', ex') => step_run_until eng fuel blockFuel st' ex'
      | Option.none => Option.none

/-! ### Observers over the event log -/

/-- The ordered per-step status reports in a log. -/
def statusesOf (log : List Event) : List (Nat × Bool) :=
  log.filterMap (fun e =>
    match e with
    | .stat i b => some (i, b)
    | _ => Option.none)

/-- The ordered output messages in a log. -/
def outMsgsOf (log : List Event) : List String :=
  log.filterMap (fun e =>
    match e with
    | .out s => some s
    | _ => Option.none)

/-- The ordered watcher snapshots in a log. -/
def watchersOf (log : List Event) : List Vars :=
  log.filterMap (fun e =>
    match e with
    | .watch v => some v
    | _ => Option.none)

/-- Whether the log contains a given output message. -/
def logHasOut (log : List Event) (m : String) : Bool :=
  log.any (fun e =>
    match e with
    | .out s => s == m
    | _ => false)

/-- Structural string-prefix test (reduces by computation, unlike
`String.isPrefixOf`). -/
def strHasPrefix (p s : String) : Bool :=
  p.toList.isPrefixOf s.toList

/-- The error messages (`"错误: ..."`) emitted in a log. -/
def errMsgsOf (log : List Event) : List String :=
  (outMsgsOf log).filter (fun s => strHasPrefix "错误: " s)

/-- The invocation notices (`"执行: ..."`) emitted in a log. -/
def execMsgsOf (log : List Event) : List String :=
  (outMsgsOf log).filter (fun s => strHasPrefix "执行: " s)

/-- The `outputs` dict of step `i` in an engine state. -/
def stepOutputsAt (st : EngineSt) (i : Nat) : List (String × Value) :=
  (st.steps.getD i defaultStep).outputs

/-! ### Theory of `_find_matching_end` (claim C3)

`stepTok` abstracts the scan's depth update; `matchCond steps i j` says the
depth counter started at `i` first *could* return to zero at `j`: `j` holds
an `end` step and the token sum over `[i, j]` is zero.  `wellFormedB` is the
balanced-bracket reading of "every `if`/`for` has exactly one paired `end`":
no prefix closes more blocks than it opened, and the whole sequence closes
all of them. -/

def sumTok (l : List Step) : Int :=
  (l.map stepTok).sum

/-- The depth accumulated by the scan from `i` through `j` inclusive. -/
def depthSeg (steps : List Step) (i j : Nat) : Int :=
  sumTok ((steps.drop i).take (j + 1 - i))

/-- `j` is a point where the scan started at `i` reads an `end` at depth
zero. -/
def matchCond (steps : List Step) (i j : Nat) : Prop :=
  i ≤ j ∧ j < steps.length ∧ isEndB (steps.getD j defaultStep) = true ∧
    depthSeg steps i j = 0

/-- Running balance check: every prefix keeps the depth nonnegative and the
total is zero. -/
def prefixOk : List Step → Int → Bool
  | [], d => d == 0
  | s :: rest, d => (decide (0 ≤ d + stepTok s)) && prefixOk rest (d + stepTok s)

def wellFormedB (steps : List Step) : Bool :=
  prefixOk steps 0

theorem sumTok_nil : sumTok [] = 0 := rfl

theorem sumTok_cons (s : Step) (l : List Step) :
    sumTok (s :: l) = stepTok s + sumTok l := by
  simp [sumTok]

theorem sumTok_append (a b : List Step) :
    sumTok (a ++ b) = sumTok a + sumTok b := by
  simp [sumTok]

theorem stepTok_values (s : Step) :
    stepTok s = 1 ∨ stepTok s = 0 ∨ stepTok s = -1 := by
  unfold stepTok
  rcases hc : ctrlOf s with _ | c
  · simp [hc]
  · cases c <;> simp [hc]

theorem stepTok_eq_neg_one_iff (s : Step) :
    stepTok s = -1 ↔ isEndB s = true := by
  unfold stepTok isEndB
  rcases hc : ctrlOf s with _ | c
  · simp [hc]
  · cases c <;> simp [hc]

theorem stepTok_of_isOpenB (s : Step) (h : isOpenB s = true) : stepTok s = 1 := by
  unfold stepTok
  unfold isOpenB at h
  rcases hc : ctrlOf s with _ | c <;> rw [hc] at h
  · simp at h
  · cases c <;> simp_all [hc]

theorem not_isEndB_of_isOpenB (s : Step) (h : isOpenB s = true) :
    isEndB s = false := by
  unfold isOpenB at h
  unfold isEndB
  rcases hc : ctrlOf s with _ | c
  · rw [hc] at h
  · rw [hc] at h
    cases c <;> simp_all

/-- Uniform unfolding of the scan on a cons cell: the depth test happens
only when the head is an `end`, after the decrement. -/
theorem fmeAux_cons (s : Step) (rest : List Step) (i : Nat) (d : Int) :
    fmeAux (s :: rest) i d =
      if isEndB s = true ∧ d + stepTok s = 0 then (i : Int)
      else fmeAux rest (i + 1) (d + stepTok s) := by
  conv_lhs => unfold fmeAux
  unfold stepTok isEndB
  rcases hc : ctrlOf s with _ | c
  · simp
  · cases c <;> simp
    have h1 : d + -1 = d - 1 := by omega
    rw [h1]

/-- Suffix-level version of `matchCond`: position `k` of the suffix holds an
`end` and the depth starting from `d` returns to zero there. -/
def endHit (l : List Step) (d : Int) (k : Nat) : Prop :=
  k < l.length ∧ isEndB (l.getD k defaultStep) = true ∧
    d + sumTok (l.take (k + 1)) = 0

theorem endHit_cons_zero (s : Step) (rest : List Step) (d : Int) :
    endHit (s :: rest) d 0 ↔ (isEndB s = true ∧ d + stepTok s = 0) := by
  simp [endHit, sumTok_cons, sumTok_nil]

theorem endHit_cons_succ (s : Step) (rest : List Step) (d : Int) (k : Nat) :
    endHit (s :: rest) d (k + 1) ↔ endHit rest (d + stepTok s) k := by
  unfold endHit
  rw [List.take_succ_cons, sumTok_cons]
  constructor
  · rintro ⟨h1, h2, h3⟩
    exact ⟨by simpa using h1, by simpa using h2, by omega⟩
  · rintro ⟨h1, h2, h3⟩
    exact ⟨by simpa using h1, by simpa using h2, by omega⟩

/-- Forward characterization of the scan: a non-sentinel result is the first
position where an `end` returns the depth to zero. -/
theorem fmeAux_eq_coe {l : List Step} {i : Nat} {d : Int} {j : Nat}
    (h : fmeAux l i d = (j : Int)) :
    ∃ k, j = i + k ∧ endHit l d k ∧ ∀ m, m < k → ¬ endHit l d m := by
  induction l generalizing i d j with
  | nil =>
    exfalso
    unfold fmeAux at h
    omega
  | cons s rest ih =>
    rw [fmeAux_cons] at h
    by_cases hc : isEndB s = true ∧ d + stepTok s = 0
    · rw [if_pos hc] at h
      have hj : j = i := by exact_mod_cast h.symm
      refine ⟨0, by omega, (endHit_cons_zero s rest d).mpr hc, ?_⟩
      intro m hm
      omega
    · rw [if_neg hc] at h
      obtain ⟨k', hj, hhit, hmin⟩ := ih h
      refine ⟨k' + 1, by omega, (endHit_cons_succ s rest d k').mpr hhit, ?_⟩
      intro m hm
      match m with
      | 0 =>
        intro hHit
        exact hc ((endHit_cons_zero s rest d).mp hHit)
      | m' + 1 =>
        intro hHit
        exact hmin m' (by omega) ((endHit_cons_succ s rest d m').mp hHit)

/-- The sentinel result means no position qualifies at all. -/
theorem fmeAux_eq_neg_one {l : List Step} {i : Nat} {d : Int}
    (h : fmeAux l i d = -1) : ∀ k, ¬ endHit l d k := by
  induction l generalizing i d with
  | nil =>
    intro k
    simp [endHit]
  | cons s rest ih =>
    rw [fmeAux_cons] at h
    by_cases hc : isEndB s = true ∧ d + stepTok s = 0
    · rw [if_pos hc] at h
      exfalso
      omega
    · rw [if_neg hc] at h
      intro k
      match k with
      | 0 => exact fun hHit => hc ((endHit_cons_zero s rest d).mp hHit)
      | k' + 1 => exact fun hHit => ih h k' ((endHit_cons_succ s rest d k').mp hHit)

/-- The scan returns either the sentinel or an index at or past the start. -/
theorem fmeAux_cases (l : List Step) (i : Nat) (d : Int) :
    fmeAux l i d = -1 ∨ ∃ j : Nat, fmeAux l i d = (j : Int) ∧ i ≤ j := by
  induction l generalizing i d with
  | nil => exact Or.inl rfl
  | cons s rest ih =>
    rw [fmeAux_cons]
    by_cases hc : isEndB s = true ∧ d + stepTok s = 0
    · rw [if_pos hc]
      exact Or.inr ⟨i, rfl, le_refl i⟩
    · rw [if_neg hc]
      rcases ih (i + 1) (d + stepTok s) with h | ⟨j, hj, hij⟩
      · exact Or.inl h
      · exact Or.inr ⟨j, hj, by omega⟩

/-- Completeness: if the depth is positive and the whole remaining token sum
would drive it to zero or below, the scan cannot end unmatched. -/
theorem fmeAux_ne_neg_one {l : List Step} (i : Nat) {d : Int}
    (hd : 1 ≤ d) (hsum : d + sumTok l ≤ 0) : fmeAux l i d ≠ -1 := by
  induction l generalizing i d with
  | nil =>
    exfalso
    rw [sumTok_nil] at hsum
    omega
  | cons s rest ih =>
    rw [fmeAux_cons]
    by_cases hc : isEndB s = true ∧ d + stepTok s = 0
    · rw [if_pos hc]
      intro hcontra
      omega
    · rw [if_neg hc]
      apply ih
      · rcases stepTok_values s with h1 | h1 | h1
        · omega
        · omega
        · have hend : isEndB s = true := (stepTok_eq_neg_one_iff s).mp h1
          have : ¬ (d + stepTok s = 0) := fun hz => hc ⟨hend, hz⟩
          omega
      · rw [sumTok_cons] at hsum
        omega

theorem getD_drop (l : List Step) (i k : Nat) :
    (l.drop i).getD k defaultStep = l.getD (i + k) defaultStep := by
  induction i generalizing l with
  | zero => simp
  | succ i' ih =>
    match l with
    | [] => simp
    | s :: rest =>
      rw [List.drop_succ_cons]
      rw [ih rest]
      have : i' + 1 + k = (i' + k) + 1 := by omega
      rw [this]
      exact (List.getD_cons_succ).symm

theorem drop_eq_getD_cons (l : List Step) (i : Nat) (h : i < l.length) :
    l.drop i = l.getD i defaultStep :: l.drop (i + 1) := by
  induction i generalizing l with
  | zero =>
    match l with
    | [] => simp at h
    | s :: rest => simp
  | succ i' ih =>
    match l with
    | [] => simp at h
    | s :: rest =>
      rw [List.drop_succ_cons, List.getD_cons_succ]
      have h' : i' < rest.length := by simpa using h
      rw [ih rest h']
      rfl

theorem sumTok_take_drop (l : List Step) (m : Nat) :
    sumTok l = sumTok (l.take m) + sumTok (l.drop m) := by
  conv_lhs => rw [← List.take_append_drop m l]
  exact sumTok_append _ _

theorem sumTok_take_succ (l : List Step) (m : Nat) (h : m < l.length) :
    sumTok (l.take (m + 1)) =
      sumTok (l.take m) + stepTok (l.getD m defaultStep) := by
  induction l generalizing m with
  | nil => simp at h
  | cons s rest ih =>
    match m with
    | 0 => simp [sumTok_cons, sumTok_nil]
    | m' + 1 =>
      rw [List.take_succ_cons, List.take_succ_cons, sumTok_cons, sumTok_cons,
        List.getD_cons_succ]
      have h' : m' < rest.length := by simpa using h
      rw [ih m' h']
      omega

theorem sumTok_drop_take (l : List Step) (i t : Nat) :
    sumTok ((l.drop i).take t) = sumTok (l.take (i + t)) - sumTok (l.take i) := by
  have h := List.take_add l i t
  have h2 : sumTok (l.take (i + t)) = sumTok (l.take i) + sumTok ((l.drop i).take t) := by
    rw [h, sumTok_append]
  omega

/-- Bridge: `endHit` on the suffix starting at `i` is `matchCond` at the
absolute index `i + k`. -/
theorem endHit_iff_matchCond (steps : List Step) (i k : Nat)
    (hi : i ≤ steps.length) :
    endHit (steps.drop i) 0 k ↔ matchCond steps i (i + k) := by
  unfold endHit matchCond depthSeg
  rw [getD_drop]
  have hlen : (steps.drop i).length = steps.length - i := by simp
  have hidx : i + k + 1 - i = k + 1 := by omega
  rw [hidx]
  constructor
  · rintro ⟨h1, h2, h3⟩
    exact ⟨by omega, by omega, h2, by omega⟩
  · rintro ⟨h1, h2, h3, h4⟩
    exact ⟨by omega, h3, by omega⟩

theorem prefixOk_facts (l : List Step) (d : Int) (hd : 0 ≤ d)
    (h : prefixOk l d = true) :
    d + sumTok l = 0 ∧ ∀ m, 0 ≤ d + sumTok (l.take m) := by
  induction l generalizing d with
  | nil =>
    unfold prefixOk at h
    rw [beq_iff_eq] at h
    constructor
    · rw [sumTok_nil]
      omega
    · intro m
      simp [sumTok_nil]
      omega
  | cons s rest ih =>
    unfold prefixOk at h
    rw [Bool.and_eq_true, decide_eq_true_eq] at h
    obtain ⟨hpos, hrest⟩ := h
    obtain ⟨htot, hpref⟩ := ih (d + stepTok s) hpos hrest
    constructor
    · rw [sumTok_cons]
      omega
    · intro m
      match m with
      | 0 => simpa [sumTok_nil] using hd
      | m' + 1 =>
        rw [List.take_succ_cons, sumTok_cons]
        have := hpref m'
        omega

/-- `find_matching_end`'s sentinel means no index qualifies. -/
theorem fme_eq_neg_one_iff (steps : List Step) (i : Nat) (hi : i ≤ steps.length) :
    find_matching_end steps i = -1 ↔ ∀ j, ¬ matchCond steps i j := by
  unfold find_matching_end
  constructor
  · intro h j hmc
    have hij : i ≤ j := hmc.1
    have hk := fmeAux_eq_neg_one h (j - i)
    apply hk
    rw [endHit_iff_matchCond steps i (j - i) hi]
    have : i + (j - i) = j := by omega
    rw [this]
    exact hmc
  · intro hno
    rcases fmeAux_cases (steps.drop i) i 0 with h | ⟨j, hj, hij⟩
    · exact h
    · exfalso
      obtain ⟨k, hjk, hhit, _⟩ := fmeAux_eq_coe hj
      exact hno (i + k) ((endHit_iff_matchCond steps i k hi).mp hhit)

/-- `find_matching_end` returns exactly the first qualifying index. -/
theorem fme_eq_coe_iff (steps : List Step) (i : Nat) (hi : i ≤ steps.length)
    (j : Nat) :
    find_matching_end steps i = (j : Int) ↔
      matchCond steps i j ∧ ∀ m, m < j → ¬ matchCond steps i m := by
  constructor
  · intro h
    obtain ⟨k, hjk, hhit, hmin⟩ := fmeAux_eq_coe (l := steps.drop i) h
    constructor
    · have := (endHit_iff_matchCond steps i k hi).mp hhit
      rw [← hjk] at this
      exact this
    · intro m hm hmc
      have him : i ≤ m := hmc.1
      have hm' : m - i < k := by omega
      apply hmin (m - i) hm'
      rw [endHit_iff_matchCond steps i (m - i) hi]
      have : i + (m - i) = m := by omega
      rw [this]
      exact hmc
  · rintro ⟨hmc, hmin⟩
    rcases fmeAux_cases (steps.drop i) i 0 with h | ⟨j', hj', hij'⟩
    · exfalso
      exact (fme_eq_neg_one_iff steps i hi).mp h j hmc
    · obtain ⟨k, hjk, hhit, hmin'⟩ := fmeAux_eq_coe hj'
      have hmc' := (endHit_iff_matchCond steps i k hi).mp hhit
      rw [← hjk] at hmc'
      have hne1 : ¬ (j' < j) := fun hlt => hmin j' hlt hmc'
      have hne2 : ¬ (j < j') := by
        intro hlt
        have hij : i ≤ j := hmc.1
        have hk' : j - i < k := by omega
        apply hmin' (j - i) hk'
        rw [endHit_iff_matchCond steps i (j - i) hi]
        have : i + (j - i) = j := by omega
        rw [this]
        exact hmc
      have : j' = j := by omega
      rw [← this]
      exact hj'

/-- On a well-formed sequence, a header's scan cannot end unmatched, and the
match lies strictly between the header and the end of the sequence. -/
theorem fme_exists (steps : List Step) (hwf : wellFormedB steps = true)
    (i : Nat) (hopen : isOpenB (steps.getD i defaultStep) = true)
    (hi : i < steps.length) :
    ∃ j : Nat, find_matching_end steps i = (j : Int) ∧ i < j ∧ j < steps.length := by
  obtain ⟨htot, hpref⟩ := prefixOk_facts steps 0 (le_refl 0) hwf
  have htot' : sumTok steps = 0 := by omega
  have hstep : find_matching_end steps i = fmeAux (steps.drop (i + 1)) (i + 1) 1 := by
    unfold find_matching_end
    rw [drop_eq_getD_cons steps i hi, fmeAux_cons,
      not_isEndB_of_isOpenB _ hopen, stepTok_of_isOpenB _ hopen]
    simp
  have hPi : 0 ≤ sumTok (steps.take i) := by
    have := hpref i
    omega
  have hPsucc : sumTok (steps.take (i + 1)) = sumTok (steps.take i) + 1 := by
    rw [sumTok_take_succ steps i hi, stepTok_of_isOpenB _ hopen]
  have hsplit := sumTok_take_drop steps (i + 1)
  have hsum : (1 : Int) + sumTok (steps.drop (i + 1)) ≤ 0 := by omega
  have hne := fmeAux_ne_neg_one (i + 1) (le_refl 1) hsum
  rcases fmeAux_cases (steps.drop (i + 1)) (i + 1) 1 with h | ⟨j, hj, hij⟩
  · exact absurd h hne
  · obtain ⟨k, hjk, hhit, _⟩ := fmeAux_eq_coe hj
    refine ⟨j, by rw [hstep]; exact hj, by omega, ?_⟩
    have hklen : k < (steps.drop (i + 1)).length := hhit.1
    have : (steps.drop (i + 1)).length = steps.length - (i + 1) := by simp
    omega

/-- On a well-formed sequence the depth stays strictly above the header's
entry level until the match: for every `m` with `i < m ≤ j`,
`P m ≥ P i + 1` where `P t` is the token sum of the first `t` steps. -/
theorem fme_positivity (steps : List Step) (i j : Nat)
    (hopen : isOpenB (steps.getD i defaultStep) = true)
    (hi : i < steps.length)
    (hj : find_matching_end steps i = (j : Int)) :
    ∀ m, i < m → m ≤ j →
      sumTok (steps.take i) + 1 ≤ sumTok (steps.take m) := by
  have hstep : find_matching_end steps i = fmeAux (steps.drop (i + 1)) (i + 1) 1 := by
    unfold find_matching_end
    rw [drop_eq_getD_cons steps i hi, fmeAux_cons,
      not_isEndB_of_isOpenB _ hopen, stepTok_of_isOpenB _ hopen]
    simp
  rw [hstep] at hj
  obtain ⟨k, hjk, hhit, hmin⟩ := fmeAux_eq_coe hj
  have hklen : k < (steps.drop (i + 1)).length := hhit.1
  have hlen' : (steps.drop (i + 1)).length = steps.length - (i + 1) := by simp
  -- the running sums over the body stay nonnegative up to the match
  have hcore : ∀ t, t ≤ k → 0 ≤ sumTok ((steps.drop (i + 1)).take t) := by
    intro t
    induction t with
    | zero =>
      intro _
      simp [sumTok_nil]
    | succ t' ih =>
      intro ht
      have ht' : 0 ≤ sumTok ((steps.drop (i + 1)).take t') := ih (by omega)
      by_contra hneg
      push_neg at hneg
      have htlen : t' < (steps.drop (i + 1)).length := by omega
      have hsucc := sumTok_take_succ (steps.drop (i + 1)) t' htlen
      rcases stepTok_values ((steps.drop (i + 1)).getD t' defaultStep) with h1 | h1 | h1
      · omega
      · omega
      · have hend : isEndB ((steps.drop (i + 1)).getD t' defaultStep) = true :=
          (stepTok_eq_neg_one_iff _).mp h1
        have hzero : (1 : Int) + sumTok ((steps.drop (i + 1)).take (t' + 1)) = 0 := by
          omega
        exact hmin t' (by omega) ⟨htlen, hend, hzero⟩
  intro m him hmj
  have ht : m - (i + 1) ≤ k := by omega
  have hseg := hcore (m - (i + 1)) ht
  have hsplit := sumTok_drop_take steps (i + 1) (m - (i + 1))
  have him : i + 1 + (m - (i + 1)) = m := by omega
  rw [him] at hsplit
  have hPsucc : sumTok (steps.take (i + 1)) = sumTok (steps.take i) + 1 := by
    rw [sumTok_take_succ steps i hi, stepTok_of_isOpenB _ hopen]
  omega

/-- The depth returns exactly to the entry level just after the match. -/
theorem fme_return_level (steps : List Step) (i j : Nat) (hi : i ≤ steps.length)
    (hj : find_matching_end steps i = (j : Int)) :
    sumTok (steps.take (j + 1)) = sumTok (steps.take i) := by
  have hmc := ((fme_eq_coe_iff steps i hi j).mp hj).1
  obtain ⟨hij, hjlen, hend, hseg⟩ := hmc
  unfold depthSeg at hseg
  have hsplit := sumTok_drop_take steps i (j + 1 - i)
  have : i + (j + 1 - i) = j + 1 := by omega
  rw [this] at hsplit
  omega

/-- On a well-formed sequence, header/end pairs are non-overlapping and
properly nested, and matches are unique. -/
theorem fme_nesting (steps : List Step) (i1 i2 j1 j2 : Nat)
    (h1 : isOpenB (steps.getD i1 defaultStep) = true) (hi1 : i1 < steps.length)
    (h2 : isOpenB (steps.getD i2 defaultStep) = true) (hi2 : i2 < steps.length)
    (hlt : i1 < i2)
    (hj1 : find_matching_end steps i1 = (j1 : Int))
    (hj2 : find_matching_end steps i2 = (j2 : Int)) :
    j2 ≠ j1 ∧ (i2 < j1 → i2 < j2 ∧ j2 < j1) ∧ (j1 < i2 → j1 < j2) := by
  have hle1 : i1 ≤ steps.length := le_of_lt hi1
  have hle2 : i2 ≤ steps.length := le_of_lt hi2
  have hmc1 := ((fme_eq_coe_iff steps i1 hle1 j1).mp hj1).1
  have hmc2 := ((fme_eq_coe_iff steps i2 hle2 j2).mp hj2).1
  have hret1 := fme_return_level steps i1 j1 hle1 hj1
  have hret2 := fme_return_level steps i2 j2 hle2 hj2
  have hij1 : i1 ≤ j1 := hmc1.1
  have hij2 : i2 ≤ j2 := hmc2.1
  have hend1 : isEndB (steps.getD j1 defaultStep) = true := hmc1.2.2.1
  have hend2 : isEndB (steps.getD j2 defaultStep) = true := hmc2.2.2.1
  -- headers are strictly before their matches (an open step is not an end)
  have hlt1 : i1 < j1 := by
    rcases Nat.eq_or_lt_of_le hij1 with heq | h
    · exfalso
      rw [← heq, not_isEndB_of_isOpenB _ h1] at hend1
      exact Bool.noConfusion hend1
    · exact h
  have hlt2 : i2 < j2 := by
    rcases Nat.eq_or_lt_of_le hij2 with heq | h
    · exfalso
      rw [← heq, not_isEndB_of_isOpenB _ h2] at hend2
      exact Bool.noConfusion hend2
    · exact h
  -- i2 cannot equal j1 (an open step is not an end step)
  have hne_i2j1 : i2 ≠ j1 := by
    intro heq
    rw [← heq, not_isEndB_of_isOpenB _ h2] at hend1
    exact Bool.noConfusion hend1
  rcases Nat.lt_or_ge i2 j1 with hcase | hcase
  · -- i2 inside i1's block: its match must close strictly before j1
    have hZ1 := fme_positivity steps i1 j1 h1 hi1 hj1
    have hPi2 : sumTok (steps.take i1) + 1 ≤ sumTok (steps.take i2) :=
      hZ1 i2 hlt (by omega)
    have hj2j1 : j2 < j1 := by
      by_contra hge
      push_neg at hge
      rcases Nat.lt_or_ge j1 j2 with hji | hji
      · have hZ2 := fme_positivity steps i2 j2 h2 hi2 hj2
        have := hZ2 (j1 + 1) (by omega) (by omega)
        omega
      · have heq : j1 = j2 := by omega
        rw [heq] at hret1
        omega
    exact ⟨by omega, fun _ => ⟨hlt2, hj2j1⟩, by omega⟩
  · -- disjoint: i2 is past j1, so its match is past j1 too
    have hj1i2 : j1 < i2 := by omega
    exact ⟨by omega, by omega, fun _ => by omega⟩

/-! ### Fixtures for the claim theorems -/

/-- A registered callable with no parameters returning `None`. -/
def fRetNone : PyFunc :=
  { params := [], impl := fun _ => Except.ok Value.none }

/-- Registry exposing `m.f` and `m.g`, both unit-returning, no predicted
output names. -/
def engMF : Engine :=
  { funcs := fun m f =>
      if m == "m" && (f == "f" || f == "g") then some fRetNone else Option.none,
    ret_names := fun _ _ => [] }

/-- Registry whose `m.f` returns a fixed value and predicts the output name
`sum` for it. -/
def engRet (v : Value) : Engine :=
  { funcs := fun m f =>
      if m == "m" && f == "f" then some { params := [], impl := fun _ => Except.ok v }
      else Option.none,
    ret_names := fun m f => if m == "m" && f == "f" then ["sum"] else [] }

/-- Registry whose `m.f` takes the outcome `r` (return or raise) and whose
`m.g` returns `None`. -/
def engOutcome (r : Except String Value) : Engine :=
  { funcs := fun m f =>
      if m == "m" && f == "f" then some { params := [], impl := fun _ => r }
      else if m == "m" && f == "g" then some fRetNone
      else Option.none,
    ret_names := fun _ _ => [] }

def c1Steps : List Step :=
  [mkControlStep .cfor [("var", "i"), ("iterable", "2")],
   mkFunctionStep "m" "f" [],
   mkControlStep .cend []]

def stC1 : EngineSt := { steps := c1Steps, log := [] }

def c2Steps : List Step :=
  [defaultStep,
   { defaultStep with outputs := [("x", Value.int 7)], params := [("p", "q")] }]

def c3DemoSteps : List Step :=
  [mkControlStep .cfor [], mkControlStep .cif [], mkControlStep .cend [],
   mkControlStep .cend [], mkControlStep .cfor [], mkControlStep .cend []]

def c4Steps : List Step :=
  [mkControlStep .cfor [("var", "k"), ("iterable", "5")],
   mkFunctionStep "m" "f" [],
   mkControlStep .cend [],
   mkFunctionStep "m" "g" []]

def stC4 : EngineSt := { steps := c4Steps, log := [] }

def c4bSteps : List Step :=
  [mkControlStep .cfor [("var", "k"), ("iterable", "[]")],
   mkFunctionStep "m" "f" [],
   mkControlStep .cend [],
   mkFunctionStep "m" "g" []]

def stC4b : EngineSt := { steps := c4bSteps, log := [] }

def c5aSteps : List Step :=
  [mkControlStep .cfor [("var", "k"), ("iterable", "5")],
   mkControlStep .cbreak [],
   mkFunctionStep "m" "f" [],
   mkControlStep .cend [],
   mkFunctionStep "m" "g" []]

def stC5a : EngineSt := { steps := c5aSteps, log := [] }

def c5bSteps : List Step :=
  [mkControlStep .cbreak [], mkFunctionStep "m" "f" []]

def stC5b : EngineSt := { steps := c5bSteps, log := [] }

def c6Steps : List Step := [mkFunctionStep "m" "f" []]

def c6ContSteps : List Step :=
  [mkFunctionStep "m" "f" [], mkFunctionStep "m" "g" []]

def c7Steps : List Step :=
  [mkControlStep .cfor [("var", "k"), ("iterable", "1")],
   mkFunctionStep "m" "f" [],
   mkControlStep .cbreak [],
   mkControlStep .cend []]

def stC7 : EngineSt := { steps := c7Steps, log := [] }

def c9Steps : List Step :=
  [mkControlStep .cfor [("var", "i"), ("iterable", "3")],
   mkFunctionStep "m" "f" [],
   mkControlStep .cend [],
   mkFunctionStep "m" "g" []]

def stC9 : EngineSt := { steps := c9Steps, log := [] }

def c10Steps : List Step :=
  [mkControlStep .cfor [("var", "k"), ("iterable", "2")],
   mkFunctionStep "m" "f" [],
   mkControlStep .cend []]

def stC10 : EngineSt := { steps := c10Steps, log := [] }

/-! ### Claim theorems -/

/-- C2: `resolve_references` substitutes `${#N:key}` from step N's outputs
(1-based), falling back to its params and then to the empty string, with
out-of-range indices giving the empty string; then substitutes `${@name}`
from the runtime variables (empty string when absent); then parses the
result as a literal, so `${#2:x}` with `outputs['x'] = 7` yields the typed
number 7, an unknown key yields the empty string, `${@i}` with
`vars = {'i': 3}` yields 3, and when the parse fails the substituted string
itself is returned; non-string inputs pass through unmodified. -/
theorem c2_resolve_references :
    resolve_references c2Steps (.str "$\x7b#2:x\x7d") [] = Value.int 7 ∧
    resolve_references c2Steps (.str "$\x7b#2:zz\x7d") [] = Value.str "" ∧
    resolve_references c2Steps (.str "$\x7b#9:x\x7d") [] = Value.str "" ∧
    resolve_references c2Steps (.str "$\x7b@i\x7d") [("i", Value.int 3)] = Value.int 3 ∧
    resolve_references c2Steps (.str "$\x7b@zz\x7d") [("i", Value.int 3)] = Value.str "" ∧
    resolve_references c2Steps (.str "$\x7b#2:p\x7d") [] = Value.str "q" ∧
    resolve_references c2Steps (.str "$\x7b#2:x\x7d and $\x7b#2:x\x7d=$\x7b@i\x7d")
      [("i", Value.int 3)] = Value.str "7 and 7=3" ∧
    (∀ n : Int, ∀ runtime_vars : Vars,
      resolve_references c2Steps (.int n) runtime_vars = Value.int n) ∧
    (∀ l : List Value, ∀ runtime_vars : Vars,
      resolve_references c2Steps (.list l) runtime_vars = Value.list l) :=
  ⟨rfl, rfl, rfl, rfl, rfl, rfl, rfl, fun _ _ => rfl, fun _ _ => rfl⟩

/-- C4: a `for` whose iterable parameter resolves to the integer 5 runs its
body exactly 5 times with the loop variable bound to 0,1,2,3,4 in order
(each body invocation emits two snapshots with the current binding), and a
`for` over an empty iterable runs the body zero times; in both cases
execution continues at the step after the matching `end` (the trailing
`m.g` step runs and the returned index is past it). -/
theorem c4_for_loop_semantics :
    (run_block engMF 100 stC4 0 3 [] Option.none).2 = BlockOut.ok 4 [] 7 ∧
    watchersOf (run_block engMF 100 stC4 0 3 [] Option.none).1.log =
      [[], [("k", Value.int 0)], [("k", Value.int 0)], [("k", Value.int 1)],
       [("k", Value.int 1)], [("k", Value.int 2)], [("k", Value.int 2)],
       [("k", Value.int 3)], [("k", Value.int 3)], [("k", Value.int 4)],
       [("k", Value.int 4)], [], []] ∧
    statusesOf (run_block engMF 100 stC4 0 3 [] Option.none).1.log =
      [(1, true), (1, true), (1, true), (1, true), (1, true), (3, true)] ∧
    (run_block engMF 100 stC4b 0 3 [] Option.none).2 = BlockOut.ok 4 [] 2 ∧
    execMsgsOf (run_block engMF 100 stC4b 0 3 [] Option.none).1.log =
      ["执行: m.g... "] ∧
    statusesOf (run_block engMF 100 stC4b 0 3 [] Option.none).1.log = [(3, true)] :=
  ⟨rfl, rfl, rfl, rfl, rfl, rfl⟩

/-- C5: a `break` inside a `for` terminates the loop at once — the body step
after the `break` never runs, the remaining four iterations are discarded,
and execution resumes right after the loop's `end` (only `m.g` is invoked
and reported); a `break` with no enclosing `for` never surfaces as an
unhandled error: `run_all` catches the escaping break signal at top level
and logs the ignore note as a normal completion. -/
theorem c5_break_semantics :
    (run_block engMF 100 stC5a 0 4 [] Option.none).2 =
      BlockOut.ok 5 [("k", Value.int 0)] 3 ∧
    statusesOf (run_block engMF 100 stC5a 0 4 [] Option.none).1.log = [(4, true)] ∧
    execMsgsOf (run_block engMF 100 stC5a 0 4 [] Option.none).1.log =
      ["执行: m.g... "] ∧
    logHasOut (run_block engMF 100 stC5a 0 4 [] Option.none).1.log "BREAK" = true ∧
    (run_all engMF 100 stC5b).2.1 = RunOutcome.breakIgnored ∧
    logHasOut (run_all engMF 100 stC5b).1.log "遇到 break（未在循环内），已忽略。\n" = true ∧
    statusesOf (run_all engMF 100 stC5b).1.log = [] :=
  ⟨rfl, rfl, rfl, rfl, rfl, rfl, rfl⟩

/-- C6: a function step's status is success exactly when the callable
returns `None` or a truthy value (falsy non-None results fail); a raising
callable yields a failed status, its message is emitted as `错误: ...`
output text, and the run continues with the next step (here the second step
still executes and reports success). -/
theorem c6_success_determination :
    (∀ r : Except String Value,
      statusesOf ((run_block (engOutcome r) 10 { steps := c6Steps, log := [] }
          0 0 [] Option.none).1.log) =
        [(0, match r with
          | .ok v => isNone v || pyBool v
          | .error _ => false)] ∧
      (run_block (engOutcome r) 10 { steps := c6Steps, log := [] }
          0 0 [] Option.none).2 = BlockOut.ok 1 [] 1) ∧
    errMsgsOf ((run_block (engOutcome (Except.error "boom")) 10
        { steps := c6Steps, log := [] } 0 0 [] Option.none).1.log) = ["错误: boom"] ∧
    statusesOf ((run_block (engOutcome (Except.error "boom")) 10
        { steps := c6ContSteps, log := [] } 0 1 [] Option.none).1.log) =
      [(0, false), (1, true)] :=
  ⟨fun r => by cases r <;> exact ⟨rfl, rfl⟩, rfl, rfl⟩

/-- C8: after a function step returns, a mapping result is merged key-by-key
into the step's outputs, while any other result is stored under `return`
and mirrored under every registry-predicted name (`sum` here), so the
reference `${#1:sum}` afterwards resolves to the typed bare value. -/
theorem c8_output_aliasing :
    (∀ r : Value,
      stepOutputsAt (run_block (engRet r) 10
          { steps := [mkFunctionStep "m" "f" []], log := [] } 0 0 [] Option.none).1 0 =
        (match r with
          | .dict d => dictUpdate [] d
          | v => [("return", v), ("sum", v)])) ∧
    resolve_references
      (run_block (engRet (Value.int 7)) 10
        { steps := [mkFunctionStep "m" "f" []], log := [] } 0 0 [] Option.none).1.steps
      (.str "$\x7b#1:sum\x7d") [] = Value.int 7 :=
  ⟨fun r => by cases r <;> rfl, rfl⟩

/-- C1 (evidence for the divergence at the failing input): on the sequence
`[for i in 2, m.f, end]`, run-to-completion and step-until-finished produce
the same per-step outputs and the same ordered status reports, but the
final runtime variables differ: the completed top-level block ends with no
variables while the step-run machine finishes with the loop binding
`i = 1` still present. -/
theorem c1_run_all_vs_step_run_divergence :
    (run_all engMF 100 stC1).2.2 = BlockOut.ok 3 [] 3 ∧
    statusesOf (run_all engMF 100 stC1).1.log = [(1, true), (1, true)] ∧
    stepOutputsAt (run_all engMF 100 stC1).1 1 = [("return", Value.none)] ∧
    (step_run_until engMF 50 100 stC1 initExecState).map (fun p => p.2.vars) =
      some [("i", Value.int 1)] ∧
    (step_run_until engMF 50 100 stC1 initExecState).map
        (fun p => statusesOf p.1.log) = some [(1, true), (1, true)] ∧
    (step_run_until engMF 50 100 stC1 initExecState).map
        (fun p => stepOutputsAt p.1 1) = some [("return", Value.none)] :=
  ⟨rfl, rfl, rfl, rfl, rfl, rfl⟩

/-- C9 (evidence for the divergence at the failing input): after the loop
`[for i in 3, m.f, end, m.g]` completes all its iterations without a break,
run-to-completion executes `m.g` with no `i` in scope (its snapshots are
empty and the block's final vars are empty), but the step-run machine keeps
the binding: it finishes with `i = 2` in `exec_state.vars` and `m.g`'s last
snapshot still shows `i = 2`. -/
theorem c9_loop_var_scope_divergence :
    (run_block engMF 100 stC9 0 3 [] Option.none).2 = BlockOut.ok 4 [] 5 ∧
    (watchersOf (run_block engMF 100 stC9 0 3 [] Option.none).1.log).getLast? =
      some [] ∧
    (step_run_until engMF 60 100 stC9 initExecState).map (fun p => p.2.vars) =
      some [("i", Value.int 2)] ∧
    (step_run_until engMF 60 100 stC9 initExecState).map
        (fun p => (watchersOf p.1.log).getLast?) =
      some (some [("i", Value.int 2)]) :=
  ⟨rfl, rfl, rfl, rfl⟩

/-- C7 counterexample: running the loop body `[m.f, break]` as one block
performs two actions — the function step (witnessed by its status report)
and the break (witnessed by the BREAK notice) — yet the escaping break
signal carries an action count of 1, not the accumulated 2; consequently
the enclosing `for` run counts only 2 actions although three were
performed (header, function, break). -/
theorem c7_counterexample :
    (run_block engMF 100 stC7 1 2 [("k", Value.int 0)] Option.none).2 =
      BlockOut.brk 1 [("k", Value.int 0)] ∧
    statusesOf (run_block engMF 100 stC7 1 2 [("k", Value.int 0)]
        Option.none).1.log = [(1, true)] ∧
    logHasOut (run_block engMF 100 stC7 1 2 [("k", Value.int 0)]
        Option.none).1.log "BREAK" = true ∧
    (run_block engMF 100 stC7 0 3 [] Option.none).2 =
      BlockOut.ok 4 [("k", Value.int 0)] 2 :=
  ⟨rfl, rfl, rfl, rfl⟩

/-- C10 counterexample: with the budget `max_actions = 2` on the sequence
`[for k in 2, m.f, end]`, `_run_block` returns `actions_done = 3`,
exceeding the budget: the loop hands the body a remaining budget without
re-checking its own after absorbing each iteration, so the already
exhausted budget does not stop the next body action. -/
theorem c10_counterexample :
    (run_block engMF 100 stC10 0 2 [] (some 2)).2 = BlockOut.ok 3 [] 3 ∧
    ¬ (3 ≤ 2) :=
  ⟨rfl, by omega⟩

/-- C3: given a start index pointing at an `if` or `for` step,
`_find_matching_end` returns the first index at which the single depth
counter (incremented on `if`/`for`, decremented on `end`) returns to zero,
and the sentinel `-1` exactly when no such index exists; consequently, on a
well-formed sequence (prefix depths never negative, total depth zero) every
header has a match, strictly after it and inside the sequence, matches of
distinct headers are distinct, and header/end ranges are non-overlapping
and properly nested. -/
theorem c3_find_matching_end_correct (steps : List Step) (i : Nat)
    (hopen : isOpenB (steps.getD i defaultStep) = true)
    (hi : i < steps.length) :
    (find_matching_end steps i = -1 ↔ ∀ j, ¬ matchCond steps i j) ∧
    (∀ j : Nat, find_matching_end steps i = (j : Int) ↔
      matchCond steps i j ∧ ∀ m, m < j → ¬ matchCond steps i m) ∧
    (wellFormedB steps = true →
      ∃ j : Nat, find_matching_end steps i = (j : Int) ∧ i < j ∧
        j < steps.length ∧
        ∀ i2 j2 : Nat, isOpenB (steps.getD i2 defaultStep) = true →
          i2 < steps.length → i < i2 → find_matching_end steps i2 = (j2 : Int) →
          j2 ≠ j ∧ (i2 < j → i2 < j2 ∧ j2 < j) ∧ (j < i2 → j < j2)) := by
  refine ⟨fme_eq_neg_one_iff steps i (le_of_lt hi),
          fun j => fme_eq_coe_iff steps i (le_of_lt hi) j, ?_⟩
  intro hwf
  obtain ⟨j, hj, hij, hjlen⟩ := fme_exists steps hwf i hopen hi
  exact ⟨j, hj, hij, hjlen, fun i2 j2 h2 hi2 hlt hj2 =>
    fme_nesting steps i i2 j j2 hopen hi h2 hi2 hlt hj hj2⟩

/-- Witness for C3 at a concrete well-formed sequence
`[for, if, end, end, for, end]`, whose header at 0 matches at 3. -/
theorem c3_witness :
    (isOpenB (c3DemoSteps.getD 0 defaultStep) = true ∧ 0 < c3DemoSteps.length) ∧
    ((find_matching_end c3DemoSteps 0 = -1 ↔ ∀ j, ¬ matchCond c3DemoSteps 0 j) ∧
     (∀ j : Nat, find_matching_end c3DemoSteps 0 = (j : Int) ↔
       matchCond c3DemoSteps 0 j ∧ ∀ m, m < j → ¬ matchCond c3DemoSteps 0 m) ∧
     (wellFormedB c3DemoSteps = true →
       ∃ j : Nat, find_matching_end c3DemoSteps 0 = (j : Int) ∧ 0 < j ∧
         j < c3DemoSteps.length ∧
         ∀ i2 j2 : Nat, isOpenB (c3DemoSteps.getD i2 defaultStep) = true →
           i2 < c3DemoSteps.length → 0 < i2 →
           find_matching_end c3DemoSteps i2 = (j2 : Int) →
           j2 ≠ j ∧ (i2 < j → i2 < j2 ∧ j2 < j) ∧ (j < i2 → j < j2))) :=
  ⟨⟨rfl, by decide⟩, c3_find_matching_end_correct c3DemoSteps 0 rfl (by decide)⟩

/-- Every escaping break signal carries an action count of exactly 1. -/
def brkIsOne : BlockOut → Prop
  | .brk a _ => a = 1
  | _ => True

theorem brkIsOne_of_eq {q : EngineSt × BlockOut} {st1 : EngineSt} {a : Nat}
    {v : Vars} (h : q = (st1, BlockOut.brk a v)) (hq : brkIsOne q.2) : a = 1 := by
  rw [h] at hq
  exact hq

/-- C7 amended: the break signal raised by a `break` step always carries an
action count of exactly 1 — only the break itself — no matter how many
actions the unwinding block call performed before it; the enclosing `for`
handler therefore adds 1 for the whole broken iteration, and the earlier
body actions are not included in the propagated count. -/
theorem c7_break_signal_carries_one (eng : Engine) (fuel : Nat) (st : EngineSt)
    (i : Nat) (e : Int) (vars : Vars) (budget : Option Nat) (acts : Nat) :
    brkIsOne (runBlockAux eng fuel st i e vars budget acts).2 := by
  induction fuel generalizing st i e vars budget acts with
  | zero =>
    simp [runBlockAux, brkIsOne]
  | succ fuel ih =>
    unfold runBlockAux
    dsimp only
    repeat' split
    all_goals try exact trivial
    all_goals try simp [brkIsOne]
    all_goals try exact ih _ _ _ _ _ _
    all_goals rename_i heq
    all_goals exact brkIsOne_of_eq heq (ih _ _ _ _ _ _)

/-- The budget-1 contract: the result of a block call (normal return or
escaping break signal) accounts for at most one action. -/
def actsLeOne : BlockOut → Prop
  | .ok _ _ a => a ≤ 1
  | .brk a _ => a ≤ 1
  | .nofuel => True

/-- C10 amended: for the bounded mode the program actually uses —
`max_actions = 1`, the only finite budget `step_run` ever passes — the
actions count returned by `_run_block` (or carried in an escaping break
signal) is at most 1.  For larger finite budgets the bound fails (see the
counterexample): after absorbing a body iteration the loop re-enters the
body without re-checking its own budget, so the count can overshoot. -/
theorem c10_budget_one_respected (eng : Engine) (fuel : Nat) (st : EngineSt)
    (i : Nat) (e : Int) (vars : Vars) :
    actsLeOne (runBlockAux eng fuel st i e vars (some 1) 0).2 := by
  induction fuel generalizing st i e vars with
  | zero =>
    simp [runBlockAux, actsLeOne]
  | succ fuel ih =>
    unfold runBlockAux
    dsimp only
    repeat' split
    all_goals try exact trivial
    all_goals try simp [actsLeOne]
    all_goals try exact ih _ _ _ _
    all_goals simp_all [budgetHit]
